import Mathlib

/-!
Verification of `tools/gen.DIR.txt.py`: a one-shot directory-tree renderer.

Python strings are modelled as `List Char` (sequences of Unicode code points),
so that the string operations the script uses (`lower`, `<=`, `startswith`,
concatenation) are computable term-level functions. The filesystem subtree
seen by one run is modelled by the inductive `Entry`: a file, a directory
together with the child sequence `iterdir` yields (in enumeration order), a
directory whose enumeration raises `PermissionError`, or a directory whose
enumeration raises any other exception. An uncaught Python exception is
modelled by `Except.error`.
-/

/-- A Python `str`: the list of its code points. -/
abbrev PyStr := List Char

/-- Lexicographic comparison of code-point sequences: Python's `s <= t` on `str`. -/
def strLe : PyStr → PyStr → Bool
  | [], _ => true
  | _ :: _, [] => false
  | a :: as, b :: bs => if a = b then strLe as bs else decide (a < b)

/-- One filesystem entry as a run of the script observes it. -/
inductive Entry : Type where
  | file (name : PyStr) : Entry
  | dir (name : PyStr) (children : List Entry) : Entry
  | dirPermErr (name : PyStr) : Entry
  | dirOtherErr (name : PyStr) : Entry

/-- A Python exception other than the caught `PermissionError`, escaping to the caller. -/
inductive PyErr : Type where
  | otherErr : PyErr
deriving DecidableEq

/-- The entry's `path.name`. -/
def Entry.name : Entry → PyStr
  | .file n => n
  | .dir n _ => n
  | .dirPermErr n => n
  | .dirOtherErr n => n

/-- The entry's `path.is_dir()`. -/
def Entry.is_dir : Entry → Bool
  | .file _ => false
  | _ => true

mutual

/-- Structure size of an entry, used as recursion fuel below. -/
def esize : Entry → Nat
  | .file _ => 1
  | .dirPermErr _ => 1
  | .dirOtherErr _ => 1
  | .dir _ cs => 1 + esizeList cs

/-- Structure size of a child list, used as recursion fuel below. -/
def esizeList : List Entry → Nat
  | [] => 1
  | c :: rest => 1 + esize c + esizeList rest

end

/-- The `DEFAULT_IGNORE_DIRS` set literal of the script. -/
def DEFAULT_IGNORE_DIRS : List PyStr :=
  [".git".data, ".vscode".data, ".venv".data, "venv".data, "__pycache__".data,
   "node_modules".data, "dist".data, "build".data, ".pytest_cache".data,
   ".mypy_cache".data, ".ruff_cache".data]

/-- The `DEFAULT_IGNORE_FILES` set literal of the script. -/
def DEFAULT_IGNORE_FILES : List PyStr := [".DS_Store".data]

/-- The `INCLUDE_HIDDEN` constant of the script. -/
def INCLUDE_HIDDEN : Bool := true

/-- Python's `name.startswith(".")`. -/
def startsWithDot : PyStr → Bool
  | [] => false
  | c :: _ => c = '.'

/-- The script's `should_ignore`. -/
def should_ignore (e : Entry) : Bool :=
  if e.is_dir then
    if DEFAULT_IGNORE_DIRS.contains e.name then true
    else if !INCLUDE_HIDDEN && startsWithDot e.name then true
    else false
  else
    if DEFAULT_IGNORE_FILES.contains e.name then true
    else if !INCLUDE_HIDDEN && startsWithDot e.name then true
    else false

/-- First component of the script's sort key `(0 if x.is_dir() else 1, x.name.lower())`. -/
def kindNum (e : Entry) : Nat := if e.is_dir then 0 else 1

/-- Second component of the sort key, `x.name.lower()`: `Char.toLower` maps
each code point to its lower-case form as Python's `str.lower` does for the
characters the tree names use. -/
def lowerName (e : Entry) : PyStr := e.name.map Char.toLower

/-- Comparison of sort keys `(0 if x.is_dir() else 1, x.name.lower())`, tuples
compared lexicographically as in Python. -/
def sortKeyLe (a b : Entry) : Prop :=
  kindNum a < kindNum b ∨ (kindNum a = kindNum b ∧ strLe (lowerName a) (lowerName b) = true)

instance : DecidableRel sortKeyLe := fun a b => by
  unfold sortKeyLe
  infer_instance

theorem strLe_total (s t : PyStr) : strLe s t = true ∨ strLe t s = true := by
  induction s generalizing t with
  | nil => exact Or.inl rfl
  | cons a as ih =>
    cases t with
    | nil => exact Or.inr rfl
    | cons b bs =>
      by_cases hab : a = b
      · subst hab
        rcases ih bs with h | h
        · exact Or.inl (by simp [strLe, h])
        · exact Or.inr (by simp [strLe, h])
      · rcases lt_or_gt_of_ne hab with h | h
        · exact Or.inl (by simp [strLe, hab, h])
        · exact Or.inr (by simp [strLe, Ne.symm hab, h])

theorem strLe_trans {s t u : PyStr} (h1 : strLe s t = true) (h2 : strLe t u = true) :
    strLe s u = true := by
  induction s generalizing t u with
  | nil => rfl
  | cons a as ih =>
    cases t with
    | nil => simp [strLe] at h1
    | cons b bs =>
      cases u with
      | nil => simp [strLe] at h2
      | cons c cs =>
        by_cases hab : a = b <;> by_cases hbc : b = c
        · subst hab; subst hbc
          simp only [strLe, if_pos rfl] at h1 h2 ⊢
          exact ih h1 h2
        · subst hab
          simp only [strLe, if_pos rfl] at h1
          simp only [strLe, if_neg hbc] at h2 ⊢
          exact h2
        · subst hbc
          simp only [strLe, if_neg hab] at h1 ⊢
          exact h1
        · simp only [strLe, if_neg hab] at h1
          simp only [strLe, if_neg hbc] at h2
          have hac : a < c := lt_trans (of_decide_eq_true h1) (of_decide_eq_true h2)
          simp [strLe, ne_of_lt hac, hac]

instance : IsTotal Entry sortKeyLe := by
  constructor
  intro a b
  rcases Nat.lt_trichotomy (kindNum a) (kindNum b) with h | h | h
  · exact Or.inl (Or.inl h)
  · rcases strLe_total (lowerName a) (lowerName b) with h2 | h2
    · exact Or.inl (Or.inr ⟨h, h2⟩)
    · exact Or.inr (Or.inr ⟨h.symm, h2⟩)
  · exact Or.inr (Or.inl h)

instance : IsTrans Entry sortKeyLe := by
  constructor
  rintro a b c (h1 | ⟨h1, h1'⟩) (h2 | ⟨h2, h2'⟩)
  · exact Or.inl (h1.trans h2)
  · exact Or.inl (h2 ▸ h1)
  · exact Or.inl (h1 ▸ h2)
  · exact Or.inr ⟨h1.trans h2, strLe_trans h1' h2'⟩

/-- The script's `list_children_sorted`: enumerate the children (a
`PermissionError` is caught and yields `[]`; any other exception propagates),
drop ignored entries, then sort by the composite key. Python's `list.sort` is
a stable sort, modelled by the stable `List.insertionSort`. -/
def list_children_sorted (e : Entry) : Except PyErr (List Entry) :=
  match e with
  | .file _ => .error .otherErr
  | .dirPermErr _ => .ok []
  | .dirOtherErr _ => .error .otherErr
  | .dir _ cs => .ok ((cs.filter (fun c => !should_ignore c)).insertionSort sortKeyLe)

theorem esize_pos (e : Entry) : 1 ≤ esize e := by
  cases e <;> simp only [esize] <;> omega

theorem esizeList_pos (l : List Entry) : 1 ≤ esizeList l := by
  cases l <;> simp only [esizeList] <;> omega

theorem esizeList_filter_le (p : Entry → Bool) (l : List Entry) :
    esizeList (l.filter p) ≤ esizeList l := by
  induction l with
  | nil => simp
  | cons a l ih =>
    simp only [List.filter]
    cases p a
    · simp only [esizeList]
      have := esize_pos a
      omega
    · simp only [esizeList]
      omega

theorem perm_esizeList_eq {l₁ l₂ : List Entry} (h : l₁.Perm l₂) :
    esizeList l₁ = esizeList l₂ := by
  induction h with
  | nil => rfl
  | cons a _ ih => simp only [esizeList]; omega
  | swap a b l => simp only [esizeList]; omega
  | trans _ _ ih₁ ih₂ => omega

theorem esizeList_children_le {e : Entry} {sub : List Entry}
    (h : list_children_sorted e = .ok sub) : esizeList sub ≤ esize e := by
  cases e with
  | file n => simp [list_children_sorted] at h
  | dirOtherErr n => simp [list_children_sorted] at h
  | dirPermErr n =>
    simp only [list_children_sorted, Except.ok.injEq] at h
    subst h
    simp [esizeList, esize]
  | dir n cs =>
    simp only [list_children_sorted, Except.ok.injEq] at h
    subst h
    have h1 := perm_esizeList_eq
      (List.perm_insertionSort sortKeyLe (cs.filter (fun c => !should_ignore c)))
    have h2 := esizeList_filter_le (fun c => !should_ignore c) cs
    simp only [esize]
    omega

theorem ebind_ok {α β : Type} (a : α) (f : α → Except PyErr β) :
    (Except.ok a : Except PyErr α).bind f = f a := rfl

theorem ebind_error {α β : Type} (e : PyErr) (f : α → Except PyErr β) :
    (Except.error e : Except PyErr α).bind f = .error e := rfl

/-- Fuel-indexed form of the `for` loop inside `render_tree.walk`. The fuel
only forces structural termination: `walkAux_congr` shows the value does not
depend on it once it reaches `esizeList cs`, and `walkChildren_nil` together
with `walkChildren_cons` are the loop's actual recursion equations. -/
def walkAux : Nat → List Entry → PyStr → Except PyErr (List PyStr)
  | 0, _, _ => .error .otherErr
  | _ + 1, [], _ => .ok []
  | fuel + 1, c :: rest, pre =>
    let isLast := rest.isEmpty
    let br := if isLast then "└── ".data else "├── ".data
    let np := pre ++ (if isLast then "    ".data else "│   ".data)
    if c.is_dir then
      (list_children_sorted c).bind fun sub =>
        (walkAux fuel sub np).bind fun subLines =>
          (walkAux fuel rest pre).bind fun tailLines =>
            .ok ((pre ++ br ++ c.name ++ "/".data) :: (subLines ++ tailLines))
    else
      (walkAux fuel rest pre).bind fun tailLines =>
        .ok ((pre ++ br ++ c.name) :: tailLines)

/-- The lines the loop body of `render_tree.walk` appends for the child list
`cs` of some directory, under accumulated prefix `pre`. An `.error` result
models an uncaught Python exception reaching `render_tree`'s caller. -/
def walkChildren (cs : List Entry) (pre : PyStr) : Except PyErr (List PyStr) :=
  walkAux (esizeList cs) cs pre

theorem walkAux_congr (f₁ : Nat) : ∀ (f₂ : Nat) (cs : List Entry) (pre : PyStr),
    esizeList cs ≤ f₁ → esizeList cs ≤ f₂ → walkAux f₁ cs pre = walkAux f₂ cs pre := by
  induction f₁ with
  | zero =>
    intro f₂ cs pre h1 _
    have := esizeList_pos cs
    omega
  | succ f ih =>
    intro f₂ cs pre h1 h2
    have hpos := esizeList_pos cs
    cases f₂ with
    | zero => omega
    | succ f₂ =>
      cases cs with
      | nil => rfl
      | cons c rest =>
        simp only [esizeList] at h1 h2
        have hc := esize_pos c
        have hr := esizeList_pos rest
        simp only [walkAux]
        by_cases hd : c.is_dir = true
        · simp only [if_pos hd]
          cases h3 : list_children_sorted c with
          | error e => simp only [ebind_error]
          | ok sub =>
            have hsub := esizeList_children_le h3
            have hce : esize c ≤ f ∧ esize c ≤ f₂ := by omega
            have e1 : ∀ p, walkAux f sub p = walkAux f₂ sub p := fun p =>
              ih f₂ sub p (by omega) (by omega)
            have e2 : ∀ p, walkAux f rest p = walkAux f₂ rest p := fun p =>
              ih f₂ rest p (by omega) (by omega)
            simp only [ebind_ok, e1, e2]
        · simp only [if_neg hd]
          simp only [ih f₂ rest pre (by omega) (by omega)]

theorem walkAux_eq (fuel : Nat) (cs : List Entry) (pre : PyStr) (h : esizeList cs ≤ fuel) :
    walkAux fuel cs pre = walkChildren cs pre :=
  walkAux_congr fuel (esizeList cs) cs pre h le_rfl

/-- The loop appends nothing for an empty child list. -/
theorem walkChildren_nil (pre : PyStr) : walkChildren [] pre = .ok [] := rfl

/-- One iteration of the loop of `render_tree.walk`: the first child `c` is
last iff no sibling follows; connector and next prefix are chosen accordingly;
a directory child emits its line (name plus trailing slash) followed by its
recursive block, a file child emits just its line; then the loop continues
with the remaining siblings. -/
theorem walkChildren_cons (c : Entry) (rest : List Entry) (pre : PyStr) :
    walkChildren (c :: rest) pre =
      (let isLast := rest.isEmpty
       let br := if isLast then "└── ".data else "├── ".data
       let np := pre ++ (if isLast then "    ".data else "│   ".data)
       if c.is_dir then
         (list_children_sorted c).bind fun sub =>
           (walkChildren sub np).bind fun subLines =>
             (walkChildren rest pre).bind fun tailLines =>
               .ok ((pre ++ br ++ c.name ++ "/".data) :: (subLines ++ tailLines))
       else
         (walkChildren rest pre).bind fun tailLines =>
           .ok ((pre ++ br ++ c.name) :: tailLines)) := by
  have hc := esize_pos c
  have hr := esizeList_pos rest
  have hsz : esizeList (c :: rest) = (esize c + esizeList rest) + 1 := by
    simp only [esizeList]
    omega
  show walkAux (esizeList (c :: rest)) (c :: rest) pre = _
  rw [hsz]
  simp only [walkAux]
  by_cases hd : c.is_dir = true
  · simp only [if_pos hd]
    cases h3 : list_children_sorted c with
    | error e => simp only [ebind_error]
    | ok sub =>
      have hsub := esizeList_children_le h3
      have e1 : ∀ p, walkAux (esize c + esizeList rest) sub p = walkChildren sub p := fun p =>
        walkAux_eq (esize c + esizeList rest) sub p (by omega)
      have e2 : ∀ p, walkAux (esize c + esizeList rest) rest p = walkChildren rest p := fun p =>
        walkAux_eq (esize c + esizeList rest) rest p (by omega)
      simp only [ebind_ok, e1, e2]
  · simp only [if_neg hd]
    simp only [walkAux_eq (esize c + esizeList rest) rest pre (by omega)]

/-- The script's `render_tree.walk dir_path prefix`: the lines it appends. -/
def walk (e : Entry) (pre : PyStr) : Except PyErr (List PyStr) :=
  match list_children_sorted e with
  | .error er => .error er
  | .ok cs => walkChildren cs pre

/-- The script's `render_tree`. `rootStr` models `str(root)`, used as the root
display name exactly when `root.name` is empty. -/
def render_tree (rootStr : PyStr) (root : Entry) : Except PyErr (List PyStr) :=
  let root_name := if root.name ≠ [] then root.name else rootStr
  match walk root [] with
  | .error er => .error er
  | .ok ls => .ok ((root_name ++ "/".data) :: ls)

example : render_tree "/r".data
    (.dir "root".data [.file "a.txt".data, .dir "sub".data [.file "b.txt".data]]) =
    .ok ["root/".data, "├── sub/".data, "│   └── b.txt".data, "└── a.txt".data] := rfl

example : render_tree "/r".data (.dir "root".data [.dirOtherErr "bad".data]) =
    .error .otherErr := rfl

example : render_tree "/r".data (.dir "root".data
    [.dirPermErr "locked".data, .file "a.txt".data,
     .dir "node_modules".data [.file "x".data], .file ".DS_Store".data]) =
    .ok ["root/".data, "├── locked/".data, "└── a.txt".data] := rfl

example : render_tree "/r".data (.dir "root".data
    [.file "B.txt".data, .file "a.txt".data, .dir "Zeta".data [], .dir "alpha".data []]) =
    .ok ["root/".data, "├── alpha/".data, "├── Zeta/".data, "├── a.txt".data,
         "└── B.txt".data] := rfl

/-- Fuel-indexed count of the non-ignored entries below a directory whose raw
child list is given, counted recursively: each non-ignored child counts one,
plus its own non-ignored descendants if it is a readable directory. -/
def countAux : Nat → List Entry → Nat
  | 0, _ => 0
  | _ + 1, [] => 0
  | fuel + 1, Entry.dir n cs2 :: rest =>
    (if should_ignore (Entry.dir n cs2) then 0 else 1 + countAux fuel cs2) +
      countAux fuel rest
  | fuel + 1, c :: rest =>
    (if should_ignore c then 0 else 1) + countAux fuel rest

theorem countAux_congr (f₁ : Nat) : ∀ (f₂ : Nat) (cs : List Entry),
    esizeList cs ≤ f₁ → esizeList cs ≤ f₂ → countAux f₁ cs = countAux f₂ cs := by
  induction f₁ with
  | zero =>
    intro f₂ cs h1 _
    have := esizeList_pos cs
    omega
  | succ f ih =>
    intro f₂ cs h1 h2
    have hpos := esizeList_pos cs
    cases f₂ with
    | zero => omega
    | succ f₂ =>
      cases cs with
      | nil => rfl
      | cons c rest =>
        simp only [esizeList] at h1 h2
        have hc := esize_pos c
        have hr := esizeList_pos rest
        cases c with
        | dir n cs2 =>
          simp only [esize] at hc h1 h2
          simp only [countAux]
          rw [ih f₂ rest (by omega) (by omega), ih f₂ cs2 (by omega) (by omega)]
        | file n => simp only [countAux]; rw [ih f₂ rest (by omega) (by omega)]
        | dirPermErr n => simp only [countAux]; rw [ih f₂ rest (by omega) (by omega)]
        | dirOtherErr n => simp only [countAux]; rw [ih f₂ rest (by omega) (by omega)]

/-- The number of non-ignored entries, counted recursively, below a directory
with raw child list `cs`. -/
def count_included (cs : List Entry) : Nat := countAux (esizeList cs) cs

/-- The number of non-ignored descendant entries of `e`: zero unless `e` is a
readable directory (entries that cannot be listed count as having none). -/
def count_descendants : Entry → Nat
  | .dir _ cs => count_included cs
  | _ => 0

theorem countAux_eq (fuel : Nat) (cs : List Entry) (h : esizeList cs ≤ fuel) :
    countAux fuel cs = count_included cs :=
  countAux_congr fuel (esizeList cs) cs h le_rfl

theorem count_included_nil : count_included [] = 0 := rfl

theorem count_included_cons (c : Entry) (rest : List Entry) :
    count_included (c :: rest) =
      (if should_ignore c then 0 else 1 + count_descendants c) + count_included rest := by
  have hc := esize_pos c
  have hr := esizeList_pos rest
  have hsz : esizeList (c :: rest) = (esize c + esizeList rest) + 1 := by
    simp only [esizeList]
    omega
  show countAux (esizeList (c :: rest)) (c :: rest) = _
  rw [hsz]
  cases c with
  | dir n cs2 =>
    simp only [esize] at hc
    simp only [countAux]
    rw [countAux_eq (esize (Entry.dir n cs2) + esizeList rest) rest (by omega),
      countAux_eq (esize (Entry.dir n cs2) + esizeList rest) cs2 (by simp only [esize]; omega)]
    rfl
  | file n =>
    simp only [countAux]
    rw [countAux_eq (esize (Entry.file n) + esizeList rest) rest (by omega)]
    rfl
  | dirPermErr n =>
    simp only [countAux]
    rw [countAux_eq (esize (Entry.dirPermErr n) + esizeList rest) rest (by omega)]
    rfl
  | dirOtherErr n =>
    simp only [countAux]
    rw [countAux_eq (esize (Entry.dirOtherErr n) + esizeList rest) rest (by omega)]
    rfl

/-- Number of output lines the subtree block of one non-ignored entry occupies:
its own line plus one line per non-ignored descendant. -/
def blockSize (e : Entry) : Nat := 1 + count_descendants e

theorem sum_blockSize_filter (cs : List Entry) :
    (((cs.filter (fun c => !should_ignore c)).map blockSize).sum) = count_included cs := by
  induction cs with
  | nil => rfl
  | cons c rest ih =>
    rw [count_included_cons, List.filter_cons]
    cases hig : should_ignore c
    · simp only [hig, Bool.not_false, eq_self_iff_true, if_true, Bool.false_eq_true,
        if_false, List.map_cons, List.sum_cons, blockSize]
      omega
    · simp only [hig, Bool.not_true, Bool.false_eq_true, if_false, eq_self_iff_true, if_true]
      rw [ih]
      omega

theorem sum_blockSize_sorted (cs : List Entry) :
    (((cs.filter (fun c => !should_ignore c)).insertionSort sortKeyLe).map blockSize).sum
      = count_included cs := by
  rw [← sum_blockSize_filter cs]
  exact (List.Perm.map blockSize
    (List.perm_insertionSort sortKeyLe (cs.filter (fun c => !should_ignore c)))).sum_eq

theorem walkAux_ok_length (fuel : Nat) : ∀ (cs : List Entry) (pre : PyStr) (ls : List PyStr),
    esizeList cs ≤ fuel → walkAux fuel cs pre = .ok ls →
    ls.length = (cs.map blockSize).sum := by
  induction fuel with
  | zero =>
    intro cs pre ls h1 _
    have := esizeList_pos cs
    omega
  | succ f ih =>
    intro cs pre ls h1 hok
    cases cs with
    | nil =>
      simp only [walkAux, Except.ok.injEq] at hok
      subst hok
      rfl
    | cons c rest =>
      simp only [esizeList] at h1
      have hc := esize_pos c
      have hr := esizeList_pos rest
      simp only [walkAux] at hok
      by_cases hd : c.is_dir = true
      · rw [if_pos hd] at hok
        cases h3 : list_children_sorted c with
        | error e => rw [h3, ebind_error] at hok; exact absurd hok (by simp)
        | ok sub =>
          rw [h3, ebind_ok] at hok
          have hsub := esizeList_children_le h3
          cases h4 : walkAux f sub
              (pre ++ (if rest.isEmpty then "    ".data else "│   ".data)) with
          | error e => rw [h4, ebind_error] at hok; exact absurd hok (by simp)
          | ok subLines =>
            rw [h4, ebind_ok] at hok
            cases h5 : walkAux f rest pre with
            | error e => rw [h5, ebind_error] at hok; exact absurd hok (by simp)
            | ok tailLines =>
              rw [h5, ebind_ok] at hok
              simp only [Except.ok.injEq] at hok
              subst hok
              have ihsub := ih sub _ subLines (by omega) h4
              have ihrest := ih rest pre tailLines (by omega) h5
              simp only [List.length_cons, List.length_append, List.map_cons, List.sum_cons]
              rw [ihsub, ihrest]
              have hbs : (sub.map blockSize).sum + 1 = blockSize c := by
                cases c with
                | file n => simp [Entry.is_dir] at hd
                | dirOtherErr n => simp [list_children_sorted] at h3
                | dirPermErr n =>
                  simp only [list_children_sorted, Except.ok.injEq] at h3
                  subst h3
                  rfl
                | dir n cs2 =>
                  simp only [list_children_sorted, Except.ok.injEq] at h3
                  subst h3
                  rw [sum_blockSize_sorted cs2]
                  simp only [blockSize, count_descendants]
                  omega
              omega
      · rw [if_neg hd] at hok
        cases h5 : walkAux f rest pre with
        | error e => rw [h5, ebind_error] at hok; exact absurd hok (by simp)
        | ok tailLines =>
          rw [h5, ebind_ok] at hok
          simp only [Except.ok.injEq] at hok
          subst hok
          have ihrest := ih rest pre tailLines (by omega) h5
          simp only [List.length_cons, List.map_cons, List.sum_cons]
          rw [ihrest]
          have hbs : blockSize c = 1 := by
            cases c with
            | file n => rfl
            | dir n cs2 => simp [Entry.is_dir] at hd
            | dirPermErr n => simp [Entry.is_dir] at hd
            | dirOtherErr n => simp [Entry.is_dir] at hd
          omega

theorem walkChildren_ok_length {cs : List Entry} {pre : PyStr} {ls : List PyStr}
    (h : walkChildren cs pre = .ok ls) : ls.length = (cs.map blockSize).sum :=
  walkAux_ok_length (esizeList cs) cs pre ls le_rfl h

theorem walk_ok_length {e : Entry} {pre : PyStr} {ls : List PyStr}
    (h : walk e pre = .ok ls) : ls.length = count_descendants e := by
  unfold walk at h
  cases h3 : list_children_sorted e with
  | error er => rw [h3] at h; exact absurd h (by simp)
  | ok cs =>
    rw [h3] at h
    have := walkChildren_ok_length h
    cases e with
    | file n => simp [list_children_sorted] at h3
    | dirOtherErr n => simp [list_children_sorted] at h3
    | dirPermErr n =>
      simp only [list_children_sorted, Except.ok.injEq] at h3
      subst h3
      simpa [count_descendants] using this
    | dir n cs2 =>
      simp only [list_children_sorted, Except.ok.injEq] at h3
      subst h3
      rw [this, sum_blockSize_sorted cs2]
      rfl

/-- The trailing segment of an entry's rendered line: its name, plus the
directory marker when the entry is a directory. -/
def lineStem (e : Entry) : PyStr := e.name ++ (if e.is_dir then "/".data else [])

theorem obind_some {α β : Type} (a : α) (f : α → Option β) :
    (some a).bind f = f a := rfl

theorem obind_none {α β : Type} (f : α → Option β) :
    (none : Option α).bind f = none := rfl

theorem etoOption_ok {α : Type} (a : α) : (Except.ok a : Except PyErr α).toOption = some a := rfl

theorem etoOption_error {α : Type} (e : PyErr) :
    (Except.error e : Except PyErr α).toOption = none := rfl

/-- Tree paths address nodes of the rendered (filtered, sorted) tree: path
`i :: p` means the child at position `i` of the current sorted child list,
then `p` below it. `entryAtL cs p` resolves a nonempty path starting from
child list `cs`. -/
def entryAtL : List Entry → List Nat → Option Entry
  | _, [] => none
  | cs, [i] => cs[i]?
  | cs, i :: p =>
    (cs[i]?).bind fun c =>
      ((list_children_sorted c).toOption).bind fun sub => entryAtL sub p

/-- Index, inside the line block rendered for a child list, of the line of
the node addressed by a nonempty path: earlier siblings contribute their
whole subtree blocks, and a directory's own line precedes its children. -/
def lineIdxL : List Entry → List Nat → Option Nat
  | _, [] => none
  | cs, [i] => (cs[i]?).bind fun _ => some (((cs.take i).map blockSize).sum)
  | cs, i :: p =>
    (cs[i]?).bind fun c =>
      ((list_children_sorted c).toOption).bind fun sub =>
        (lineIdxL sub p).bind fun s =>
          some (((cs.take i).map blockSize).sum + 1 + s)

/-- The node of the rendered tree of `e` addressed by path `p` (`e` itself for `[]`). -/
def entryAt (e : Entry) (p : List Nat) : Option Entry :=
  match p with
  | [] => some e
  | _ :: _ =>
    ((list_children_sorted e).toOption).bind fun cs => entryAtL cs p

/-- Index in `e`'s rendered block (whose first line, index 0, is `e`'s own
line) of the line of the node addressed by path `p`. -/
def lineIdx (e : Entry) (p : List Nat) : Option Nat :=
  match p with
  | [] => some 0
  | _ :: _ =>
    ((list_children_sorted e).toOption).bind fun cs =>
      (lineIdxL cs p).bind fun k => some (k + 1)

theorem blockSize_pos (e : Entry) : 1 ≤ blockSize e := by
  simp only [blockSize]
  omega

theorem sum_children_blockSize {c : Entry} {sub : List Entry}
    (h : list_children_sorted c = .ok sub) :
    (sub.map blockSize).sum + 1 = blockSize c := by
  cases c with
  | file n => simp [list_children_sorted] at h
  | dirOtherErr n => simp [list_children_sorted] at h
  | dirPermErr n =>
    simp only [list_children_sorted, Except.ok.injEq] at h
    subst h
    rfl
  | dir n cs2 =>
    simp only [list_children_sorted, Except.ok.injEq] at h
    subst h
    rw [sum_blockSize_sorted cs2]
    simp only [blockSize, count_descendants]
    omega

theorem sum_take_le (cs : List Entry) : ∀ (i : Nat) (c : Entry), cs[i]? = some c →
    ((cs.take i).map blockSize).sum + blockSize c ≤ (cs.map blockSize).sum := by
  induction cs with
  | nil => intro i c h; simp at h
  | cons d rest ih =>
    intro i c h
    cases i with
    | zero =>
      rw [List.getElem?_cons_zero, Option.some.injEq] at h
      subst h
      simp only [List.take_zero, List.map_nil, List.sum_nil, List.map_cons, List.sum_cons]
      omega
    | succ i =>
      rw [List.getElem?_cons_succ] at h
      have := ih i c h
      simp only [List.take_succ_cons, List.map_cons, List.sum_cons]
      omega

theorem lineIdxL_bound : ∀ (p : List Nat) (cs : List Entry) (k : Nat),
    lineIdxL cs p = some k → k + 1 ≤ (cs.map blockSize).sum := by
  intro p
  induction p with
  | nil => intro cs k h; simp [lineIdxL] at h
  | cons i p ih =>
    intro cs k h
    cases hg : cs[i]? with
    | none =>
      cases p <;> simp only [lineIdxL, hg, obind_none] at h <;> exact Option.noConfusion h
    | some c =>
      have htake := sum_take_le cs i c hg
      cases p with
      | nil =>
        simp only [lineIdxL, hg, obind_some, Option.some.injEq] at h
        subst h
        have := blockSize_pos c
        omega
      | cons j q =>
        simp only [lineIdxL, hg, obind_some] at h
        cases h3 : list_children_sorted c with
        | error e =>
          rw [h3] at h
          simp only [etoOption_error, obind_none] at h
          exact Option.noConfusion h
        | ok sub =>
          rw [h3] at h
          simp only [etoOption_ok, obind_some] at h
          cases h4 : lineIdxL sub (j :: q) with
          | none =>
            rw [h4] at h
            simp only [obind_none] at h
            exact Option.noConfusion h
          | some s =>
            rw [h4] at h
            simp only [obind_some, Option.some.injEq] at h
            subst h
            have hsub := ih sub s h4
            have hbs := sum_children_blockSize h3
            omega

theorem lineIdxL_mono : ∀ (p q : List Nat) (cs : List Entry) (k m : Nat),
    lineIdxL cs p = some k → lineIdxL cs (p ++ q) = some m → q ≠ [] → k < m := by
  intro p
  induction p with
  | nil => intro q cs k m h _ _; simp [lineIdxL] at h
  | cons i p ih =>
    intro q cs k m hk hm hq
    cases hg : cs[i]? with
    | none =>
      cases p <;> simp only [lineIdxL, hg, obind_none] at hk <;> exact Option.noConfusion hk
    | some c =>
      cases p with
      | nil =>
        simp only [lineIdxL, hg, obind_some, Option.some.injEq] at hk
        subst hk
        rw [List.cons_append, List.nil_append] at hm
        cases q with
        | nil => exact absurd rfl hq
        | cons j q' =>
          simp only [lineIdxL, hg, obind_some] at hm
          cases h3 : list_children_sorted c with
          | error e =>
            rw [h3] at hm
            simp only [etoOption_error, obind_none] at hm
            exact Option.noConfusion hm
          | ok sub =>
            rw [h3] at hm
            simp only [etoOption_ok, obind_some] at hm
            cases h4 : lineIdxL sub (j :: q') with
            | none =>
              rw [h4] at hm
              simp only [obind_none] at hm
              exact Option.noConfusion hm
            | some s =>
              rw [h4] at hm
              simp only [obind_some, Option.some.injEq] at hm
              omega
      | cons a b =>
        simp only [lineIdxL, hg, obind_some] at hk
        rw [List.cons_append, List.cons_append] at hm
        simp only [lineIdxL, hg, obind_some] at hm
        cases h3 : list_children_sorted c with
        | error e =>
          rw [h3] at hk
          simp only [etoOption_error, obind_none] at hk
          exact Option.noConfusion hk
        | ok sub =>
          rw [h3] at hk hm
          simp only [etoOption_ok, obind_some] at hk hm
          cases h4 : lineIdxL sub (a :: b) with
          | none =>
            rw [h4] at hk
            simp only [obind_none] at hk
            exact Option.noConfusion hk
          | some s₁ =>
            rw [h4] at hk
            simp only [obind_some, Option.some.injEq] at hk
            subst hk
            cases h5 : lineIdxL sub (a :: (b ++ q)) with
            | none =>
              rw [h5] at hm
              simp only [obind_none] at hm
              exact Option.noConfusion hm
            | some s₂ =>
              rw [h5] at hm
              simp only [obind_some, Option.some.injEq] at hm
              have := ih q sub s₁ s₂ h4 (by rw [List.cons_append]; exact h5) hq
              omega

theorem lineStem_dir {e : Entry} (h : e.is_dir = true) :
    lineStem e = e.name ++ "/".data := by
  simp [lineStem, h]

theorem lineStem_file {e : Entry} (h : e.is_dir = false) : lineStem e = e.name := by
  simp [lineStem, h]

theorem blockSize_file {e : Entry} (h : e.is_dir = false) : blockSize e = 1 := by
  cases e with
  | file n => rfl
  | dir n cs => simp [Entry.is_dir] at h
  | dirPermErr n => simp [Entry.is_dir] at h
  | dirOtherErr n => simp [Entry.is_dir] at h

theorem walkAux_cons_ok {fuel : Nat} {c : Entry} {rest : List Entry} {pre : PyStr}
    {ls : List PyStr} (h : walkAux (fuel + 1) (c :: rest) pre = .ok ls) :
    (c.is_dir = true ∧ ∃ sub subLines tailLines,
      list_children_sorted c = .ok sub ∧
      walkAux fuel sub (pre ++ (if rest.isEmpty then "    ".data else "│   ".data)) =
        .ok subLines ∧
      walkAux fuel rest pre = .ok tailLines ∧
      ls = (pre ++ (if rest.isEmpty then "└── ".data else "├── ".data) ++ c.name ++ "/".data)
        :: (subLines ++ tailLines))
  ∨ (c.is_dir = false ∧ ∃ tailLines, walkAux fuel rest pre = .ok tailLines ∧
      ls = (pre ++ (if rest.isEmpty then "└── ".data else "├── ".data) ++ c.name)
        :: tailLines) := by
  simp only [walkAux] at h
  by_cases hd : c.is_dir = true
  · rw [if_pos hd] at h
    cases h3 : list_children_sorted c with
    | error e => rw [h3, ebind_error] at h; exact absurd h (by simp)
    | ok sub =>
      rw [h3, ebind_ok] at h
      cases h4 : walkAux fuel sub
          (pre ++ (if rest.isEmpty then "    ".data else "│   ".data)) with
      | error e => rw [h4, ebind_error] at h; exact absurd h (by simp)
      | ok subLines =>
        rw [h4, ebind_ok] at h
        cases h5 : walkAux fuel rest pre with
        | error e => rw [h5, ebind_error] at h; exact absurd h (by simp)
        | ok tailLines =>
          rw [h5, ebind_ok] at h
          simp only [Except.ok.injEq] at h
          exact Or.inl ⟨hd, sub, subLines, tailLines, rfl, h4, rfl, h.symm⟩
  · rw [if_neg hd] at h
    cases h5 : walkAux fuel rest pre with
    | error e => rw [h5, ebind_error] at h; exact absurd h (by simp)
    | ok tailLines =>
      rw [h5, ebind_ok] at h
      simp only [Except.ok.injEq] at h
      have hd' : c.is_dir = false := by
        revert hd
        cases c.is_dir <;> simp
      exact Or.inr ⟨hd', tailLines, rfl, h.symm⟩

theorem walkAux_line (fuel : Nat) : ∀ (cs : List Entry) (pre : PyStr) (ls : List PyStr)
    (i : Nat) (c : Entry), esizeList cs ≤ fuel → walkAux fuel cs pre = .ok ls →
    cs[i]? = some c →
    ∃ b, (b = "└── ".data ∨ b = "├── ".data) ∧
      ls[((cs.take i).map blockSize).sum]? = some (pre ++ b ++ lineStem c) := by
  induction fuel with
  | zero =>
    intro cs pre ls i c h1 _ _
    have := esizeList_pos cs
    omega
  | succ fuel ih =>
    intro cs pre ls i c h1 hok hget
    cases cs with
    | nil => simp at hget
    | cons c₀ rest =>
      simp only [esizeList] at h1
      have hc := esize_pos c₀
      have hr := esizeList_pos rest
      rcases walkAux_cons_ok hok with
        ⟨hd, sub, subLines, tailLines, h3, h4, h5, hls⟩ | ⟨hd, tailLines, h5, hls⟩
      · -- directory head
        have hsubsz : esizeList sub ≤ fuel := by
          have := esizeList_children_le h3
          omega
        have hsubLen : subLines.length + 1 = blockSize c₀ := by
          rw [walkAux_ok_length fuel sub _ subLines hsubsz h4]
          exact sum_children_blockSize h3
        cases i with
        | zero =>
          rw [List.getElem?_cons_zero, Option.some.injEq] at hget
          subst hget
          subst hls
          refine ⟨if rest.isEmpty then "└── ".data else "├── ".data, ?_, ?_⟩
          · cases rest.isEmpty
            · exact Or.inr rfl
            · exact Or.inl rfl
          · simp only [List.take_zero, List.map_nil, List.sum_nil, List.getElem?_cons_zero,
              lineStem_dir hd, List.append_assoc]
        | succ j =>
          rw [List.getElem?_cons_succ] at hget
          subst hls
          obtain ⟨b, hb, hline⟩ := ih rest pre tailLines j c (by omega) h5 hget
          refine ⟨b, hb, ?_⟩
          rw [List.take_succ_cons, List.map_cons, List.sum_cons]
          have harith : blockSize c₀ + ((rest.take j).map blockSize).sum =
              (subLines.length + ((rest.take j).map blockSize).sum) + 1 := by
            omega
          rw [harith, List.getElem?_cons_succ,
            List.getElem?_append_right (by omega)]
          have harith2 : subLines.length + ((rest.take j).map blockSize).sum -
              subLines.length = ((rest.take j).map blockSize).sum := by
            omega
          rw [harith2]
          exact hline
      · -- file head
        have hbs : blockSize c₀ = 1 := blockSize_file hd
        cases i with
        | zero =>
          rw [List.getElem?_cons_zero, Option.some.injEq] at hget
          subst hget
          subst hls
          refine ⟨if rest.isEmpty then "└── ".data else "├── ".data, ?_, ?_⟩
          · cases rest.isEmpty
            · exact Or.inr rfl
            · exact Or.inl rfl
          · simp only [List.take_zero, List.map_nil, List.sum_nil, List.getElem?_cons_zero,
              lineStem_file hd]
        | succ j =>
          rw [List.getElem?_cons_succ] at hget
          subst hls
          obtain ⟨b, hb, hline⟩ := ih rest pre tailLines j c (by omega) h5 hget
          refine ⟨b, hb, ?_⟩
          rw [List.take_succ_cons, List.map_cons, List.sum_cons, hbs]
          have harith : 1 + ((rest.take j).map blockSize).sum =
              ((rest.take j).map blockSize).sum + 1 := by
            omega
          rw [harith, List.getElem?_cons_succ]
          exact hline

theorem walkAux_sub (fuel : Nat) : ∀ (cs : List Entry) (pre : PyStr) (ls : List PyStr)
    (i : Nat) (c : Entry) (sub : List Entry), esizeList cs ≤ fuel →
    walkAux fuel cs pre = .ok ls → cs[i]? = some c → list_children_sorted c = .ok sub →
    ∃ np subLines, walkChildren sub np = .ok subLines ∧
      ∀ (s : Nat) (x : PyStr), subLines[s]? = some x →
        ls[((cs.take i).map blockSize).sum + 1 + s]? = some x := by
  induction fuel with
  | zero =>
    intro cs pre ls i c sub h1 _ _ _
    have := esizeList_pos cs
    omega
  | succ fuel ih =>
    intro cs pre ls i c sub h1 hok hget hsub
    cases cs with
    | nil => simp at hget
    | cons c₀ rest =>
      simp only [esizeList] at h1
      have hc := esize_pos c₀
      have hr := esizeList_pos rest
      rcases walkAux_cons_ok hok with
        ⟨hd, sub₀, subLines₀, tailLines, h3, h4, h5, hls⟩ | ⟨hd, tailLines, h5, hls⟩
      · have hsubsz : esizeList sub₀ ≤ fuel := by
          have := esizeList_children_le h3
          omega
        have hsubLen : subLines₀.length + 1 = blockSize c₀ := by
          rw [walkAux_ok_length fuel sub₀ _ subLines₀ hsubsz h4]
          exact sum_children_blockSize h3
        cases i with
        | zero =>
          rw [List.getElem?_cons_zero, Option.some.injEq] at hget
          subst hget
          rw [hsub, Except.ok.injEq] at h3
          subst h3
          subst hls
          refine ⟨pre ++ (if rest.isEmpty then "    ".data else "│   ".data), subLines₀,
            (walkAux_eq fuel sub _ hsubsz).symm.trans h4, ?_⟩
          intro s x hx
          have hslen : s < subLines₀.length := by
            rw [List.getElem?_eq_some] at hx
            exact hx.1
          simp only [List.take_zero, List.map_nil, List.sum_nil]
          have harith : 0 + 1 + s = s + 1 := by omega
          rw [harith, List.getElem?_cons_succ, List.getElem?_append_left hslen]
          exact hx
        | succ j =>
          rw [List.getElem?_cons_succ] at hget
          subst hls
          obtain ⟨np, subLines, hwc, htrans⟩ :=
            ih rest pre tailLines j c sub (by omega) h5 hget hsub
          refine ⟨np, subLines, hwc, ?_⟩
          intro s x hx
          have := htrans s x hx
          rw [List.take_succ_cons, List.map_cons, List.sum_cons]
          have harith : blockSize c₀ + ((rest.take j).map blockSize).sum + 1 + s =
              (subLines₀.length + (((rest.take j).map blockSize).sum + 1 + s)) + 1 := by
            omega
          rw [harith, List.getElem?_cons_succ, List.getElem?_append_right (by omega)]
          have harith2 : subLines₀.length + (((rest.take j).map blockSize).sum + 1 + s) -
              subLines₀.length = ((rest.take j).map blockSize).sum + 1 + s := by
            omega
          rw [harith2]
          exact this
      · cases i with
        | zero =>
          rw [List.getElem?_cons_zero, Option.some.injEq] at hget
          subst hget
          cases c₀ with
          | file n => exact absurd hsub (by simp [list_children_sorted])
          | dir n cs2 => simp [Entry.is_dir] at hd
          | dirPermErr n => simp [Entry.is_dir] at hd
          | dirOtherErr n => simp [Entry.is_dir] at hd
        | succ j =>
          rw [List.getElem?_cons_succ] at hget
          subst hls
          obtain ⟨np, subLines, hwc, htrans⟩ :=
            ih rest pre tailLines j c sub (by omega) h5 hget hsub
          refine ⟨np, subLines, hwc, ?_⟩
          intro s x hx
          have := htrans s x hx
          rw [List.take_succ_cons, List.map_cons, List.sum_cons, blockSize_file hd]
          have harith : 1 + ((rest.take j).map blockSize).sum + 1 + s =
              (((rest.take j).map blockSize).sum + 1 + s) + 1 := by
            omega
          rw [harith, List.getElem?_cons_succ]
          exact this

theorem walkCorrL : ∀ (p : List Nat) (cs : List Entry) (pre : PyStr) (ls : List PyStr)
    (k : Nat), walkChildren cs pre = .ok ls → lineIdxL cs p = some k →
    ∃ c, entryAtL cs p = some c ∧ ∃ l, ls[k]? = some l ∧
      ∃ b, (b = "└── ".data ∨ b = "├── ".data) ∧ ∃ pr, l = pr ++ b ++ lineStem c := by
  intro p
  induction p with
  | nil => intro cs pre ls k _ hk; simp [lineIdxL] at hk
  | cons i p ih =>
    intro cs pre ls k hok hk
    cases hg : cs[i]? with
    | none =>
      cases p <;> simp only [lineIdxL, hg, obind_none] at hk <;> exact Option.noConfusion hk
    | some c =>
      cases p with
      | nil =>
        simp only [lineIdxL, hg, obind_some, Option.some.injEq] at hk
        subst hk
        obtain ⟨b, hb, hline⟩ :=
          walkAux_line (esizeList cs) cs pre ls i c le_rfl hok hg
        exact ⟨c, by simp only [entryAtL, hg], pre ++ b ++ lineStem c, hline, b, hb, pre, rfl⟩
      | cons j q =>
        simp only [lineIdxL, hg, obind_some] at hk
        cases h3 : list_children_sorted c with
        | error e =>
          rw [h3] at hk
          simp only [etoOption_error, obind_none] at hk
          exact Option.noConfusion hk
        | ok sub =>
          rw [h3] at hk
          simp only [etoOption_ok, obind_some] at hk
          cases h4 : lineIdxL sub (j :: q) with
          | none =>
            rw [h4] at hk
            simp only [obind_none] at hk
            exact Option.noConfusion hk
          | some s =>
            rw [h4] at hk
            simp only [obind_some, Option.some.injEq] at hk
            subst hk
            obtain ⟨np, subLines, hwc, htrans⟩ :=
              walkAux_sub (esizeList cs) cs pre ls i c sub le_rfl hok hg h3
            obtain ⟨c', hat, l, hsl, b, hb, pr, hshape⟩ := ih sub np subLines s hwc h4
            refine ⟨c', ?_, l, htrans s l hsl, b, hb, pr, hshape⟩
            simp only [entryAtL, hg, obind_some, h3, etoOption_ok, obind_some]
            exact hat

theorem render_tree_corr {rs : PyStr} {root : Entry} {lines : List PyStr}
    (h : render_tree rs root = .ok lines) :
    ∀ (p : List Nat) (n : Nat), lineIdx root p = some n →
      n < lines.length ∧ ∃ c, entryAt root p = some c ∧
        ∃ l, lines[n]? = some l ∧ lineStem c <:+ l := by
  unfold render_tree at h
  cases hw : walk root [] with
  | error er => rw [hw] at h; exact absurd h (by simp)
  | ok ls =>
    rw [hw] at h
    simp only [Except.ok.injEq] at h
    subst h
    have hdir : root.is_dir = true := by
      unfold walk at hw
      cases root with
      | file n => simp [list_children_sorted] at hw
      | dirOtherErr n => simp [list_children_sorted] at hw
      | dir n cs => rfl
      | dirPermErr n => rfl
    unfold walk at hw
    intro p n hn
    cases p with
    | nil =>
      simp only [lineIdx, Option.some.injEq] at hn
      subst hn
      refine ⟨by simp, root, rfl, _, List.getElem?_cons_zero, ?_⟩
      rw [lineStem_dir hdir]
      by_cases hname : root.name = []
      · rw [hname]
        simp only [List.nil_append, ne_eq, not_true_eq_false, if_false, hname]
        exact List.suffix_append rs "/".data
      · simp only [ne_eq, hname, not_false_eq_true, if_true]
        exact List.suffix_rfl
    | cons i p' =>
      cases hlcs : list_children_sorted root with
      | error er => rw [hlcs] at hw; exact absurd hw (by simp)
      | ok cs0 =>
        rw [hlcs] at hw
        simp only [lineIdx, hlcs, etoOption_ok, obind_some] at hn
        cases hk : lineIdxL cs0 (i :: p') with
        | none =>
          rw [hk] at hn
          simp only [obind_none] at hn
          exact Option.noConfusion hn
        | some k =>
          rw [hk] at hn
          simp only [obind_some, Option.some.injEq] at hn
          subst hn
          have hbound := lineIdxL_bound (i :: p') cs0 k hk
          have hlen := walkChildren_ok_length hw
          obtain ⟨c, hat, l, hsl, b, hb, pr, hshape⟩ := walkCorrL (i :: p') cs0 [] ls k hw hk
          refine ⟨?_, c, ?_, l, ?_, ?_⟩
          · simp only [List.length_cons]
            omega
          · simp only [entryAt, hlcs, etoOption_ok, obind_some]
            exact hat
          · rw [List.getElem?_cons_succ]
            exact hsl
          · rw [hshape, List.append_assoc]
            exact (List.suffix_append b (lineStem c)).trans (List.suffix_append pr _)

theorem list_contains_iff (l : List PyStr) (a : PyStr) : l.contains a = true ↔ a ∈ l := by
  simp [List.contains, List.elem_iff]

theorem lineIdx_mono {root : Entry} : ∀ (p q : List Nat) (n m : Nat),
    lineIdx root p = some n → lineIdx root (p ++ q) = some m → q ≠ [] → n < m := by
  intro p q n m hn hm hq
  cases p with
  | nil =>
    simp only [lineIdx, Option.some.injEq] at hn
    subst hn
    rw [List.nil_append] at hm
    cases q with
    | nil => exact absurd rfl hq
    | cons j q' =>
      simp only [lineIdx] at hm
      cases hlcs : list_children_sorted root with
      | error er =>
        rw [hlcs] at hm
        simp only [etoOption_error, obind_none] at hm
        exact Option.noConfusion hm
      | ok cs =>
        rw [hlcs] at hm
        simp only [etoOption_ok, obind_some] at hm
        cases hk : lineIdxL cs (j :: q') with
        | none =>
          rw [hk] at hm
          simp only [obind_none] at hm
          exact Option.noConfusion hm
        | some k =>
          rw [hk] at hm
          simp only [obind_some, Option.some.injEq] at hm
          omega
  | cons i p' =>
    rw [List.cons_append] at hm
    simp only [lineIdx] at hn hm
    cases hlcs : list_children_sorted root with
    | error er =>
      rw [hlcs] at hn
      simp only [etoOption_error, obind_none] at hn
      exact Option.noConfusion hn
    | ok cs =>
      rw [hlcs] at hn hm
      simp only [etoOption_ok, obind_some] at hn hm
      cases hk : lineIdxL cs (i :: p') with
      | none =>
        rw [hk] at hn
        simp only [obind_none] at hn
        exact Option.noConfusion hn
      | some k₁ =>
        rw [hk] at hn
        simp only [obind_some, Option.some.injEq] at hn
        subst hn
        cases hk2 : lineIdxL cs (i :: (p' ++ q)) with
        | none =>
          rw [hk2] at hm
          simp only [obind_none] at hm
          exact Option.noConfusion hm
        | some k₂ =>
          rw [hk2] at hm
          simp only [obind_some, Option.some.injEq] at hm
          subst hm
          have := lineIdxL_mono (i :: p') q cs k₁ k₂ hk
            (by rw [List.cons_append]; exact hk2) hq
          omega

theorem kindNum_of_dir {e : Entry} (h : e.is_dir = true) : kindNum e = 0 := by
  simp [kindNum, h]

theorem kindNum_of_file {e : Entry} (h : e.is_dir = false) : kindNum e = 1 := by
  simp [kindNum, h]

/-- The two parts of the sibling-ordering invariant follow from one sort-key
comparison: directory-kind entries precede file-kind ones, and equal kinds are
ordered by the case-folded name. -/
theorem sortKeyLe_spec {a b : Entry} (hab : sortKeyLe a b) :
    (b.is_dir = true → a.is_dir = true) ∧
      (a.is_dir = b.is_dir → strLe (lowerName a) (lowerName b) = true) := by
  constructor
  · intro hb
    cases ha : a.is_dir with
    | true => rfl
    | false =>
      exfalso
      have h1 := kindNum_of_dir hb
      have h2 := kindNum_of_file ha
      cases hab with
      | inl hlt => omega
      | inr heq => omega
  · intro heq
    cases hab with
    | inl hlt =>
      exfalso
      have : kindNum a = kindNum b := by
        simp [kindNum, heq]
      omega
    | inr h => exact h.2

theorem lcs_pairwise {e : Entry} {cs : List Entry} (h : list_children_sorted e = .ok cs) :
    cs.Pairwise sortKeyLe := by
  cases e with
  | file n => simp [list_children_sorted] at h
  | dirOtherErr n => simp [list_children_sorted] at h
  | dirPermErr n =>
    simp only [list_children_sorted, Except.ok.injEq] at h
    subst h
    exact List.Pairwise.nil
  | dir n cs2 =>
    simp only [list_children_sorted, Except.ok.injEq] at h
    subst h
    exact List.sorted_insertionSort sortKeyLe (cs2.filter (fun c => !should_ignore c))

theorem lcs_not_ignored {e : Entry} {cs : List Entry} {c : Entry}
    (h : list_children_sorted e = .ok cs) (hc : c ∈ cs) : should_ignore c = false := by
  cases e with
  | file n => simp [list_children_sorted] at h
  | dirOtherErr n => simp [list_children_sorted] at h
  | dirPermErr n =>
    simp only [list_children_sorted, Except.ok.injEq] at h
    subst h
    simp at hc
  | dir n cs2 =>
    simp only [list_children_sorted, Except.ok.injEq] at h
    subst h
    rw [List.mem_insertionSort, List.mem_filter] at hc
    have := hc.2
    revert this
    cases should_ignore c <;> simp

/-- A non-ignored entry's name is in neither ignore set (relative to its kind). -/
theorem should_ignore_false_spec {e : Entry} (h : should_ignore e = false) :
    (e.is_dir = true → e.name ∉ DEFAULT_IGNORE_DIRS) ∧
      (e.is_dir = false → e.name ∉ DEFAULT_IGNORE_FILES) := by
  constructor
  · intro hd hmem
    rw [should_ignore, if_pos hd] at h
    rw [← list_contains_iff] at hmem
    rw [if_pos hmem] at h
    exact Bool.noConfusion h
  · intro hd hmem
    rw [should_ignore, hd] at h
    simp only [Bool.false_eq_true, if_false] at h
    rw [← list_contains_iff] at hmem
    rw [if_pos hmem] at h
    exact Bool.noConfusion h

/-- Every line the walk loop emits is some non-ignored entry's line: a prefix,
one of the two connector glyphs, then the entry's name with a trailing slash
exactly when the entry is a directory. -/
theorem walkAux_shape (fuel : Nat) : ∀ (cs : List Entry) (pre : PyStr) (ls : List PyStr),
    esizeList cs ≤ fuel → walkAux fuel cs pre = .ok ls →
    (∀ c ∈ cs, should_ignore c = false) →
    ∀ l ∈ ls, ∃ (pr b : PyStr) (e : Entry), should_ignore e = false ∧
      (b = "└── ".data ∨ b = "├── ".data) ∧ l = pr ++ b ++ lineStem e := by
  induction fuel with
  | zero =>
    intro cs pre ls h1 _ _ _ _
    have := esizeList_pos cs
    omega
  | succ fuel ih =>
    intro cs pre ls h1 hok hno l hl
    cases cs with
    | nil =>
      simp only [walkAux, Except.ok.injEq] at hok
      subst hok
      simp at hl
    | cons c₀ rest =>
      simp only [esizeList] at h1
      have hc := esize_pos c₀
      have hr := esizeList_pos rest
      have hno₀ : should_ignore c₀ = false := hno c₀ (by simp)
      have hnorest : ∀ c ∈ rest, should_ignore c = false := fun c hc =>
        hno c (List.mem_cons_of_mem c₀ hc)
      rcases walkAux_cons_ok hok with
        ⟨hd, sub, subLines, tailLines, h3, h4, h5, hls⟩ | ⟨hd, tailLines, h5, hls⟩
      · subst hls
        rcases List.mem_cons.mp hl with hl | hl
        · subst hl
          refine ⟨pre, if rest.isEmpty then "└── ".data else "├── ".data, c₀, hno₀, ?_, ?_⟩
          · cases rest.isEmpty
            · exact Or.inr rfl
            · exact Or.inl rfl
          · rw [lineStem_dir hd, List.append_assoc, List.append_assoc]
        · rw [List.mem_append] at hl
          rcases hl with hl | hl
          · exact ih sub _ subLines
              (by have := esizeList_children_le h3; omega) h4
              (fun c hc => lcs_not_ignored h3 hc) l hl
          · exact ih rest pre tailLines (by omega) h5 hnorest l hl
      · subst hls
        rcases List.mem_cons.mp hl with hl | hl
        · subst hl
          refine ⟨pre, if rest.isEmpty then "└── ".data else "├── ".data, c₀, hno₀, ?_, ?_⟩
          · cases rest.isEmpty
            · exact Or.inr rfl
            · exact Or.inl rfl
          · rw [lineStem_file hd, List.append_assoc]
        · exact ih rest pre tailLines (by omega) h5 hnorest l hl

/-- Python's `list.insert(j, x)`: insert `x` before position `j`, clamped to the end. -/
def insertAt : Nat → Entry → List Entry → List Entry
  | 0, x, cs => x :: cs
  | _ + 1, x, [] => [x]
  | j + 1, x, c :: rest => c :: insertAt j x rest

theorem filter_insertAt (j : Nat) (x : Entry) (cs : List Entry)
    (hx : should_ignore x = true) :
    (insertAt j x cs).filter (fun c => !should_ignore c) =
      cs.filter (fun c => !should_ignore c) := by
  induction cs generalizing j with
  | nil =>
    cases j with
    | zero => simp [insertAt, List.filter_cons, hx]
    | succ j => simp [insertAt, List.filter_cons, hx]
  | cons c rest ih =>
    cases j with
    | zero => simp [insertAt, List.filter_cons, hx]
    | succ j =>
      simp only [insertAt, List.filter_cons]
      rw [ih j]

/-- Adding an entry the filter ignores anywhere in a directory's raw child
list leaves the walk of that directory unchanged. -/
theorem walk_insertAt_ignored (n : PyStr) (cs : List Entry) (pre : PyStr) (j : Nat)
    (x : Entry) (hx : should_ignore x = true) :
    walk (.dir n (insertAt j x cs)) pre = walk (.dir n cs) pre := by
  unfold walk
  simp only [list_children_sorted, filter_insertAt j x cs hx]

theorem render_tree_insertAt_ignored (rs : PyStr) (n : PyStr) (cs : List Entry) (j : Nat)
    (x : Entry) (hx : should_ignore x = true) :
    render_tree rs (.dir n (insertAt j x cs)) = render_tree rs (.dir n cs) := by
  unfold render_tree
  rw [walk_insertAt_ignored n cs [] j x hx]
  rfl

/-- A non-ignored file among the sorted children contributes its own line. -/
theorem walkChildren_mem_file_line {cs : List Entry} {pre : PyStr} {ls : List PyStr}
    {c : Entry} (hok : walkChildren cs pre = .ok ls) (hc : c ∈ cs)
    (hd : c.is_dir = false) :
    ∃ b, (b = "└── ".data ∨ b = "├── ".data) ∧ (pre ++ b ++ c.name) ∈ ls := by
  obtain ⟨i, hi⟩ := List.getElem?_of_mem hc
  obtain ⟨b, hb, hline⟩ := walkAux_line (esizeList cs) cs pre ls i c le_rfl hok hi
  rw [lineStem_file hd] at hline
  rw [List.getElem?_eq_some] at hline
  obtain ⟨hlt, heq⟩ := hline
  exact ⟨b, hb, heq ▸ List.getElem_mem hlt⟩

/-- Kind of filesystem object found at a path. -/
inductive FsKind : Type where
  | file : FsKind
  | dir : FsKind
deriving DecidableEq

/-- A filesystem path, most specific component first (`/a/b` is `["b", "a"]`). -/
abbrev RPath := List PyStr

/-- `Path.parents`: the proper ancestors of a path, nearest first. -/
def parents : RPath → List RPath
  | [] => []
  | _ :: rest => rest :: parents rest

/-- The environment one `detect_repo_root` call runs against: the outcome of
the `git rev-parse --show-toplevel` subprocess (`none` models every failure —
tool absent, non-zero exit, any exception — while `some out` is a successful
call with captured stdout `out`), the resolution of paths (`Path.resolve`),
the construction-plus-resolution `Path(out).resolve()` of an output string,
and which kind of object, if any, a lookup finds at each path. -/
structure FsEnv where
  gitToplevel : Option PyStr
  resolve : RPath → RPath
  resolveStr : PyStr → RPath
  statKind : RPath → Option FsKind

/-- Python's `str.strip()`: drop whitespace from both ends. -/
def pyStrip (s : PyStr) : PyStr :=
  (((s.dropWhile Char.isWhitespace).reverse).dropWhile Char.isWhitespace).reverse

/-- `(p / ".git").exists()`: an entry named `.git` of any kind exists under `p`. -/
def hasGitEntry (env : FsEnv) (p : RPath) : Bool :=
  (env.statKind (".git".data :: p)).isSome

/-- The script's `detect_repo_root`: prefer the git toplevel query; on failure
or empty output walk `[cur, *cur.parents]` and return the first directory
containing a `.git` entry; as a last resort return `start.resolve()`. -/
def detect_repo_root (env : FsEnv) (start : RPath) : RPath :=
  let fallback :=
    let cur := env.resolve start
    match (cur :: parents cur).find? (fun p => hasGitEntry env p) with
    | some p => p
    | none => env.resolve start
  match env.gitToplevel with
  | none => fallback
  | some raw =>
    let out := pyStrip raw
    if out ≠ [] then env.resolveStr out else fallback

theorem find?_eq_of_first {α : Type} (p : α → Bool) :
    ∀ (l : List α) (i : Nat) (c : α), l[i]? = some c →
    (∀ (j : Nat) (d : α), j < i → l[j]? = some d → p d = false) → p c = true →
    l.find? p = some c := by
  intro l
  induction l with
  | nil => intro i c h _ _; simp at h
  | cons a l ih =>
    intro i c h hbefore hc
    cases i with
    | zero =>
      rw [List.getElem?_cons_zero, Option.some.injEq] at h
      subst h
      exact List.find?_cons_of_pos l hc
    | succ i =>
      rw [List.getElem?_cons_succ] at h
      have ha : p a = false := hbefore 0 a (Nat.succ_pos i) List.getElem?_cons_zero
      rw [List.find?_cons_of_neg l (by rw [ha]; exact Bool.noConfusion)]
      exact ih i c h (fun j d hj hd => hbefore (j + 1) d (by omega)
        (by rw [List.getElem?_cons_succ]; exact hd)) hc

mutual

/-- No directory in this subtree fails enumeration with an exception other
than `PermissionError`. -/
def noOtherErr : Entry → Bool
  | .file _ => true
  | .dirPermErr _ => true
  | .dirOtherErr _ => false
  | .dir _ cs => noOtherErrList cs

def noOtherErrList : List Entry → Bool
  | [] => true
  | c :: rest => noOtherErr c && noOtherErrList rest

end

theorem noOtherErrList_iff {cs : List Entry} :
    noOtherErrList cs = true ↔ ∀ c ∈ cs, noOtherErr c = true := by
  induction cs with
  | nil => simp [noOtherErrList]
  | cons c rest ih =>
    simp only [noOtherErrList, Bool.and_eq_true, ih, List.mem_cons]
    constructor
    · rintro ⟨h1, h2⟩ d (rfl | hd)
      · exact h1
      · exact h2 d hd
    · intro h
      exact ⟨h c (Or.inl rfl), fun d hd => h d (Or.inr hd)⟩

theorem lcs_noOtherErr {c : Entry} {sub : List Entry} (hno : noOtherErr c = true)
    (h : list_children_sorted c = .ok sub) : ∀ x ∈ sub, noOtherErr x = true := by
  cases c with
  | file n => simp [list_children_sorted] at h
  | dirOtherErr n => simp [noOtherErr] at hno
  | dirPermErr n =>
    simp only [list_children_sorted, Except.ok.injEq] at h
    subst h
    simp
  | dir n cs2 =>
    simp only [list_children_sorted, Except.ok.injEq] at h
    subst h
    intro x hx
    rw [List.mem_insertionSort, List.mem_filter] at hx
    exact noOtherErrList_iff.mp hno x hx.1

theorem walkAux_total (fuel : Nat) : ∀ (cs : List Entry) (pre : PyStr),
    esizeList cs ≤ fuel → (∀ c ∈ cs, noOtherErr c = true) →
    ∃ ls, walkAux fuel cs pre = .ok ls := by
  induction fuel with
  | zero =>
    intro cs pre h1 _
    have := esizeList_pos cs
    omega
  | succ fuel ih =>
    intro cs pre h1 hno
    cases cs with
    | nil => exact ⟨[], rfl⟩
    | cons c rest =>
      simp only [esizeList] at h1
      have hc := esize_pos c
      have hr := esizeList_pos rest
      have hnoc : noOtherErr c = true := hno c (by simp)
      have hnorest : ∀ d ∈ rest, noOtherErr d = true := fun d hd =>
        hno d (List.mem_cons_of_mem c hd)
      obtain ⟨tailLines, htl⟩ := ih rest pre (by omega) hnorest
      by_cases hd : c.is_dir = true
      · have hlcs : ∃ sub, list_children_sorted c = .ok sub := by
          cases c with
          | file n => simp [Entry.is_dir] at hd
          | dir n cs2 => exact ⟨_, rfl⟩
          | dirPermErr n => exact ⟨[], rfl⟩
          | dirOtherErr n => simp [noOtherErr] at hnoc
        obtain ⟨sub, h3⟩ := hlcs
        obtain ⟨subLines, hsl⟩ :=
          ih sub (pre ++ (if rest.isEmpty then "    ".data else "│   ".data))
            (by have := esizeList_children_le h3; omega) (lcs_noOtherErr hnoc h3)
        refine ⟨(pre ++ (if rest.isEmpty then "└── ".data else "├── ".data) ++ c.name
          ++ "/".data) :: (subLines ++ tailLines), ?_⟩
        simp only [walkAux]
        rw [if_pos hd, h3, ebind_ok, hsl, ebind_ok, htl, ebind_ok]
      · refine ⟨(pre ++ (if rest.isEmpty then "└── ".data else "├── ".data) ++ c.name)
          :: tailLines, ?_⟩
        simp only [walkAux]
        rw [if_neg hd, htl, ebind_ok]

/-- C1: the rendered line count is the root line plus one line per non-ignored
descendant entry, counted recursively: each included child of each visited
directory contributes exactly one line. -/
theorem c1_render_line_count (rs : PyStr) (root : Entry) (lines : List PyStr)
    (h : render_tree rs root = .ok lines) :
    lines.length = 1 + count_descendants root := by
  unfold render_tree at h
  cases hw : walk root [] with
  | error er => rw [hw] at h; exact absurd h (by simp)
  | ok ls =>
    rw [hw] at h
    simp only [Except.ok.injEq] at h
    subst h
    simp only [List.length_cons]
    rw [walk_ok_length hw]
    omega

theorem c1_witness :
    (["root/".data, "├── sub/".data, "│   └── b.txt".data,
      "└── a.txt".data] : List PyStr).length =
      1 + count_descendants
        (.dir "root".data [.file "a.txt".data, .dir "sub".data [.file "b.txt".data]]) :=
  c1_render_line_count "/r".data
    (.dir "root".data [.file "a.txt".data, .dir "sub".data [.file "b.txt".data]]) _ rfl

/-- C2: the rendered sequence is a strict preorder: the node of the filtered,
sorted tree addressed by a path has its line inside the output (`lineIdx` in
range, the line carrying that entry's name and marker), the root line is line
zero and every descendant's line index is strictly greater than its
ancestor's; and each directory's sorted child list puts directory-kind
children before file-kind children and is non-decreasing on the case-folded
name within equal kinds. -/
theorem c2_preorder_and_sibling_order (rs : PyStr) (root : Entry) (lines : List PyStr)
    (h : render_tree rs root = .ok lines) :
    (∀ (e : Entry) (cs : List Entry), list_children_sorted e = .ok cs →
      cs.Pairwise (fun a b => (b.is_dir = true → a.is_dir = true) ∧
        (a.is_dir = b.is_dir → strLe (lowerName a) (lowerName b) = true)))
    ∧ (∀ (p q : List Nat) (n m : Nat), lineIdx root p = some n →
        lineIdx root (p ++ q) = some m → q ≠ [] → n < m)
    ∧ (∀ (p : List Nat) (n : Nat), lineIdx root p = some n →
        n < lines.length ∧ ∃ c, entryAt root p = some c ∧
          ∃ l, lines[n]? = some l ∧ lineStem c <:+ l) := by
  refine ⟨?_, ?_, render_tree_corr h⟩
  · intro e cs hcs
    exact (lcs_pairwise hcs).imp (fun hab => sortKeyLe_spec hab)
  · intro p q n m hn hm hq
    exact lineIdx_mono p q n m hn hm hq

theorem c2_witness :
    1 < (["root/".data, "├── sub/".data, "│   └── b.txt".data,
        "└── a.txt".data] : List PyStr).length ∧
    ∃ c, entryAt
        (.dir "root".data [.file "a.txt".data, .dir "sub".data [.file "b.txt".data]])
        [0] = some c ∧
      ∃ l, (["root/".data, "├── sub/".data, "│   └── b.txt".data,
          "└── a.txt".data] : List PyStr)[1]? = some l ∧ lineStem c <:+ l :=
  (c2_preorder_and_sibling_order "/r".data
    (.dir "root".data [.file "a.txt".data, .dir "sub".data [.file "b.txt".data]])
    ["root/".data, "├── sub/".data, "│   └── b.txt".data, "└── a.txt".data]
    rfl).2.2 [0] 1 rfl

/-- Fuel-indexed success predicate of the walk loop over a child list: a file
or permission-failing child is fine (the latter contributes zero children), a
child failing enumeration with any other exception is not, and a readable
directory child requires its own sorted, filtered child list to succeed. -/
def walkOkAux : Nat → List Entry → Bool
  | 0, _ => false
  | _ + 1, [] => true
  | fuel + 1, Entry.file _ :: rest => walkOkAux fuel rest
  | fuel + 1, Entry.dirPermErr _ :: rest => walkOkAux fuel rest
  | _ + 1, Entry.dirOtherErr _ :: _ => false
  | fuel + 1, Entry.dir _ cs2 :: rest =>
    walkOkAux fuel ((cs2.filter (fun x => !should_ignore x)).insertionSort sortKeyLe)
      && walkOkAux fuel rest

/-- The walk loop over child list `cs` completes without an uncaught exception. -/
def walkOk (cs : List Entry) : Bool := walkOkAux (esizeList cs) cs

/-- `render_tree` on this root returns a full line sequence rather than
raising: the root itself can be listed, and every directory the walk visits
fails enumeration, if at all, only with `PermissionError`. -/
def render_ok (root : Entry) : Bool :=
  match list_children_sorted root with
  | .error _ => false
  | .ok cs => walkOk cs

theorem walkAux_nil_ok (fuel : Nat) (pre : PyStr) (h : 1 ≤ fuel) :
    walkAux fuel [] pre = .ok [] := by
  cases fuel with
  | zero => omega
  | succ f => rfl

theorem walkOk_of_aux_ok (fuel : Nat) : ∀ (cs : List Entry) (pre : PyStr) (ls : List PyStr),
    esizeList cs ≤ fuel → walkAux fuel cs pre = .ok ls → walkOkAux fuel cs = true := by
  induction fuel with
  | zero =>
    intro cs pre ls h1 _
    have := esizeList_pos cs
    omega
  | succ fuel ih =>
    intro cs pre ls h1 hok
    cases cs with
    | nil => rfl
    | cons c rest =>
      simp only [esizeList] at h1
      have hc := esize_pos c
      have hr := esizeList_pos rest
      rcases walkAux_cons_ok hok with
        ⟨hd, sub, subLines, tailLines, h3, h4, h5, _⟩ | ⟨hd, tailLines, h5, _⟩
      · have hrest := ih rest pre tailLines (by omega) h5
        cases c with
        | file n => simp [Entry.is_dir] at hd
        | dirOtherErr n => simp [list_children_sorted] at h3
        | dirPermErr n =>
          simp only [walkOkAux]
          exact hrest
        | dir n cs2 =>
          simp only [list_children_sorted, Except.ok.injEq] at h3
          subst h3
          have hb : esizeList
              ((cs2.filter (fun x => !should_ignore x)).insertionSort sortKeyLe) ≤
              esize (Entry.dir n cs2) := esizeList_children_le rfl
          have hsub := ih _ _ subLines (by omega) h4
          simp only [walkOkAux]
          rw [hsub, hrest]
          rfl
      · have hrest := ih rest pre tailLines (by omega) h5
        cases c with
        | file n =>
          simp only [walkOkAux]
          exact hrest
        | dir n cs2 => simp [Entry.is_dir] at hd
        | dirPermErr n => simp [Entry.is_dir] at hd
        | dirOtherErr n => simp [Entry.is_dir] at hd

theorem aux_ok_of_walkOk (fuel : Nat) : ∀ (cs : List Entry) (pre : PyStr),
    esizeList cs ≤ fuel → walkOkAux fuel cs = true →
    ∃ ls, walkAux fuel cs pre = .ok ls := by
  induction fuel with
  | zero =>
    intro cs pre h1 _
    have := esizeList_pos cs
    omega
  | succ fuel ih =>
    intro cs pre h1 hw
    cases cs with
    | nil => exact ⟨[], rfl⟩
    | cons c rest =>
      simp only [esizeList] at h1
      have hc := esize_pos c
      have hr := esizeList_pos rest
      cases c with
      | file n =>
        simp only [walkOkAux] at hw
        obtain ⟨tail, htl⟩ := ih rest pre (by omega) hw
        exact ⟨_, by
          simp only [walkAux]
          rw [if_neg (by simp [Entry.is_dir]), htl, ebind_ok]⟩
      | dirOtherErr n =>
        simp only [walkOkAux] at hw
        exact Bool.noConfusion hw
      | dirPermErr n =>
        simp only [walkOkAux] at hw
        obtain ⟨tail, htl⟩ := ih rest pre (by omega) hw
        exact ⟨_, by
          simp only [walkAux]
          rw [if_pos (show (Entry.dirPermErr n).is_dir = true from rfl),
            show list_children_sorted (Entry.dirPermErr n) = Except.ok [] from rfl, ebind_ok,
            walkAux_nil_ok fuel _ (by omega), ebind_ok, htl, ebind_ok]⟩
      | dir n cs2 =>
        simp only [walkOkAux, Bool.and_eq_true] at hw
        have hb : esizeList
            ((cs2.filter (fun x => !should_ignore x)).insertionSort sortKeyLe) ≤
            esize (Entry.dir n cs2) := esizeList_children_le rfl
        obtain ⟨subLines, hsl⟩ :=
          ih ((cs2.filter (fun x => !should_ignore x)).insertionSort sortKeyLe)
            (pre ++ (if rest.isEmpty then "    ".data else "│   ".data)) (by omega) hw.1
        obtain ⟨tail, htl⟩ := ih rest pre (by omega) hw.2
        exact ⟨_, by
          simp only [walkAux]
          rw [if_pos (show (Entry.dir n cs2).is_dir = true from rfl),
            show list_children_sorted (Entry.dir n cs2) =
              Except.ok ((cs2.filter (fun x => !should_ignore x)).insertionSort sortKeyLe)
              from rfl,
            ebind_ok, hsl, ebind_ok, htl, ebind_ok]⟩

/-- C3, counterexample: a directory whose enumeration raises an exception that
is not a `PermissionError` makes `render_tree` raise to its caller instead of
completing: only `PermissionError` is caught by `list_children_sorted`. -/
theorem c3_counterexample :
    render_tree "/r".data (.dir "root".data [.dirOtherErr "bad".data]) =
      .error .otherErr := rfl

/-- C3 (amended): `render_tree` returns a full line sequence exactly when the
root can be listed and every directory the walk visits fails enumeration, if
at all, only with `PermissionError` (the predicate `render_ok`): permission
failures are treated as zero children, while an enumeration failure with any
other exception is not caught and propagates to the caller, so no line
sequence is returned. In particular the render completes whenever every
enumeration failure anywhere in a directory-rooted tree is a
`PermissionError`. -/
theorem c3_amended_error_handling (rs : PyStr) (root : Entry) :
    ((∃ lines, render_tree rs root = .ok lines) ↔ render_ok root = true)
    ∧ (∀ nm, list_children_sorted (.dirPermErr nm) = .ok [])
    ∧ (root.is_dir = true → noOtherErr root = true → render_ok root = true) := by
  refine ⟨⟨?_, ?_⟩, fun nm => rfl, ?_⟩
  · rintro ⟨lines, h⟩
    unfold render_tree at h
    cases hw : walk root [] with
    | error er => rw [hw] at h; exact absurd h (by simp)
    | ok ls =>
      unfold walk at hw
      cases hlcs : list_children_sorted root with
      | error er => rw [hlcs] at hw; exact absurd hw (by simp)
      | ok cs0 =>
        rw [hlcs] at hw
        unfold render_ok
        rw [hlcs]
        exact walkOk_of_aux_ok (esizeList cs0) cs0 [] ls le_rfl hw
  · intro hok
    unfold render_ok at hok
    cases hlcs : list_children_sorted root with
    | error er =>
      rw [hlcs] at hok
      exact Bool.noConfusion hok
    | ok cs0 =>
      rw [hlcs] at hok
      obtain ⟨ls, hls⟩ := aux_ok_of_walkOk (esizeList cs0) cs0 [] le_rfl hok
      have hw : walk root [] = .ok ls := by
        unfold walk
        rw [hlcs]
        exact hls
      exact ⟨_, by unfold render_tree; rw [hw]⟩
  · intro hd hno
    cases root with
    | file n => simp [Entry.is_dir] at hd
    | dirOtherErr n => simp [noOtherErr] at hno
    | dirPermErr n => rfl
    | dir n cs =>
      unfold render_ok
      obtain ⟨ls, hls⟩ :=
        walkAux_total
          (esizeList ((cs.filter (fun x => !should_ignore x)).insertionSort sortKeyLe))
          ((cs.filter (fun x => !should_ignore x)).insertionSort sortKeyLe) []
          le_rfl (lcs_noOtherErr hno rfl)
      exact walkOk_of_aux_ok _ _ [] ls le_rfl hls

theorem c3_witness :
    ∃ lines, render_tree "/r".data
      (.dir "root".data [.dirPermErr "locked".data, .file "a.txt".data]) = .ok lines :=
  (c3_amended_error_handling "/r".data
    (.dir "root".data [.dirPermErr "locked".data, .file "a.txt".data])).1.mpr rfl

theorem should_ignore_of_mem_dirs {nm : PyStr} (junk : List Entry)
    (hm : nm ∈ DEFAULT_IGNORE_DIRS) : should_ignore (.dir nm junk) = true := by
  simp [should_ignore, Entry.is_dir, Entry.name, list_contains_iff]
  exact Or.inl hm

/-- C4, counterexample: the root's own line is never filtered. A root
directory named `build` — a literal of the directory-ignore set — renders
with its own line `build/`, whose trailing entry name `build` is in the
directory-ignore set, contradicting the claim read over all output lines. -/
theorem c4_counterexample :
    render_tree "/x".data (.dir "build".data []) = .ok ["build/".data] ∧
    "build".data ∈ DEFAULT_IGNORE_DIRS ∧
    lineStem (.dir "build".data []) = "build/".data := by
  refine ⟨rfl, by decide, rfl⟩

/-- C4 (amended): every output line other than the root line is some
non-ignored entry's line — a
prefix, a connector glyph, then the entry's name (with `/` marker iff it is a
directory), the name lying outside the ignore set for the entry's kind — and
inserting a directory whose name is in the directory-ignore set anywhere into
any directory's raw child list leaves both that directory's walk and the whole
render unchanged: the ignored directory contributes zero lines regardless of
its contents. -/
theorem c4_ignore_filtering (rs : PyStr) (root : Entry) (lines : List PyStr)
    (h : render_tree rs root = .ok lines) :
    (∀ l ∈ lines.tail, ∃ (pr b : PyStr) (e : Entry),
        (b = "└── ".data ∨ b = "├── ".data) ∧ l = pr ++ b ++ lineStem e ∧
        (e.is_dir = true → e.name ∉ DEFAULT_IGNORE_DIRS) ∧
        (e.is_dir = false → e.name ∉ DEFAULT_IGNORE_FILES))
    ∧ (∀ (n pre : PyStr) (cs : List Entry) (j : Nat) (nm : PyStr) (junk : List Entry),
        nm ∈ DEFAULT_IGNORE_DIRS →
        walk (.dir n (insertAt j (.dir nm junk) cs)) pre = walk (.dir n cs) pre)
    ∧ (∀ (n : PyStr) (cs : List Entry) (j : Nat) (nm : PyStr) (junk : List Entry),
        nm ∈ DEFAULT_IGNORE_DIRS →
        render_tree rs (.dir n (insertAt j (.dir nm junk) cs)) =
          render_tree rs (.dir n cs)) := by
  refine ⟨?_, ?_, ?_⟩
  · unfold render_tree at h
    cases hw : walk root [] with
    | error er => rw [hw] at h; exact absurd h (by simp)
    | ok ls =>
      rw [hw] at h
      simp only [Except.ok.injEq] at h
      subst h
      intro l hl
      simp only [List.tail_cons] at hl
      unfold walk at hw
      cases hlcs : list_children_sorted root with
      | error er => rw [hlcs] at hw; exact absurd hw (by simp)
      | ok cs0 =>
        rw [hlcs] at hw
        obtain ⟨pr, b, e, hno, hb, hshape⟩ :=
          walkAux_shape (esizeList cs0) cs0 [] ls le_rfl hw
            (fun c hc => lcs_not_ignored hlcs hc) l hl
        have hspec := should_ignore_false_spec hno
        exact ⟨pr, b, e, hb, hshape, hspec.1, hspec.2⟩
  · intro n pre cs j nm junk hm
    exact walk_insertAt_ignored n cs pre j (.dir nm junk)
      (should_ignore_of_mem_dirs junk hm)
  · intro n cs j nm junk hm
    exact render_tree_insertAt_ignored rs n cs j (.dir nm junk)
      (should_ignore_of_mem_dirs junk hm)

theorem c4_witness :
    (∀ l ∈ (["root/".data, "├── locked/".data, "└── a.txt".data] : List PyStr).tail,
      ∃ (pr b : PyStr) (e : Entry),
        (b = "└── ".data ∨ b = "├── ".data) ∧ l = pr ++ b ++ lineStem e ∧
        (e.is_dir = true → e.name ∉ DEFAULT_IGNORE_DIRS) ∧
        (e.is_dir = false → e.name ∉ DEFAULT_IGNORE_FILES))
    ∧ (∀ (n pre : PyStr) (cs : List Entry) (j : Nat) (nm : PyStr) (junk : List Entry),
        nm ∈ DEFAULT_IGNORE_DIRS →
        walk (.dir n (insertAt j (.dir nm junk) cs)) pre = walk (.dir n cs) pre)
    ∧ (∀ (n : PyStr) (cs : List Entry) (j : Nat) (nm : PyStr) (junk : List Entry),
        nm ∈ DEFAULT_IGNORE_DIRS →
        render_tree "/r".data (.dir n (insertAt j (.dir nm junk) cs)) =
          render_tree "/r".data (.dir n cs)) :=
  c4_ignore_filtering "/r".data
    (.dir "root".data
      [.dirPermErr "locked".data, .file "a.txt".data,
       .dir "node_modules".data [.file "x".data], .file ".DS_Store".data])
    ["root/".data, "├── locked/".data, "└── a.txt".data] rfl

theorem detect_fallback_eq (env : FsEnv) (start : RPath)
    (hfail : env.gitToplevel = none ∨ ∃ raw, env.gitToplevel = some raw ∧ pyStrip raw = []) :
    detect_repo_root env start =
      match (env.resolve start :: parents (env.resolve start)).find?
          (fun p => hasGitEntry env p) with
      | some p => p
      | none => env.resolve start := by
  unfold detect_repo_root
  rcases hfail with hnone | ⟨raw, hsome, hempty⟩
  · rw [hnone]
  · rw [hsome]
    simp only [ne_eq, hempty, eq_self_iff_true, not_true, if_false]

/-- C5: `detect_repo_root` always returns a path (it is a total function). If
the git toplevel query succeeds with output that is non-empty after stripping,
it returns that output resolved. On any failure, or empty output, it walks
`[cur, *cur.parents]` upward and returns the first directory containing a
`.git` entry; if none has one, it returns the resolved starting directory. -/
theorem c5_detect_repo_root (env : FsEnv) (start : RPath) :
    (∀ raw, env.gitToplevel = some raw → pyStrip raw ≠ [] →
      detect_repo_root env start = env.resolveStr (pyStrip raw))
    ∧ ((env.gitToplevel = none ∨ ∃ raw, env.gitToplevel = some raw ∧ pyStrip raw = []) →
      (∀ (i : Nat) (c : RPath),
        (env.resolve start :: parents (env.resolve start))[i]? = some c →
        (∀ (j : Nat) (d : RPath), j < i →
          (env.resolve start :: parents (env.resolve start))[j]? = some d →
          hasGitEntry env d = false) →
        hasGitEntry env c = true → detect_repo_root env start = c)
      ∧ ((∀ p ∈ env.resolve start :: parents (env.resolve start),
          hasGitEntry env p = false) →
        detect_repo_root env start = env.resolve start)) := by
  constructor
  · intro raw h1 h2
    unfold detect_repo_root
    rw [h1]
    simp only [ne_eq, h2, not_false_eq_true, if_true]
  · intro hfail
    have hfb := detect_fallback_eq env start hfail
    constructor
    · intro i c hc hbefore hgit
      rw [hfb, find?_eq_of_first (fun p => hasGitEntry env p) _ i c hc hbefore hgit]
    · intro hall
      rw [hfb, List.find?_eq_none.mpr (fun x hx => by rw [hall x hx]; exact Bool.noConfusion)]

theorem c5_witness :
    detect_repo_root
      ⟨some " /repo \n".data, id, fun s => [s], fun _ => none⟩ ["a".data] =
      [" /repo \n".data.dropWhile Char.isWhitespace |>.reverse.dropWhile
        Char.isWhitespace |>.reverse] :=
  (c5_detect_repo_root ⟨some " /repo \n".data, id, fun s => [s], fun _ => none⟩
    ["a".data]).1 " /repo \n".data rfl (by decide)

/-- C6: the two-entry scenario. For a root directory holding exactly the file
`a.txt` and the directory `sub` holding exactly `b.txt` (in either enumeration
order), the render is exactly the four expected lines, `sub` first. -/
theorem c6_scenario (rs nm : PyStr) (cs : List Entry) (hnm : nm ≠ [])
    (hcs : cs = [.file "a.txt".data, .dir "sub".data [.file "b.txt".data]] ∨
      cs = [.dir "sub".data [.file "b.txt".data], .file "a.txt".data]) :
    render_tree rs (.dir nm cs) =
      .ok [nm ++ "/".data, "├── sub/".data, "│   └── b.txt".data, "└── a.txt".data] := by
  have hw1 : walk (.dir nm [.file "a.txt".data, .dir "sub".data [.file "b.txt".data]]) [] =
      .ok ["├── sub/".data, "│   └── b.txt".data, "└── a.txt".data] := rfl
  have hw2 : walk (.dir nm [.dir "sub".data [.file "b.txt".data], .file "a.txt".data]) [] =
      .ok ["├── sub/".data, "│   └── b.txt".data, "└── a.txt".data] := rfl
  rcases hcs with rfl | rfl
  · unfold render_tree
    rw [hw1]
    simp only [Entry.name, ne_eq, hnm, not_false_eq_true, if_true]
  · unfold render_tree
    rw [hw2]
    simp only [Entry.name, ne_eq, hnm, not_false_eq_true, if_true]

theorem c6_witness :
    render_tree "/r".data
      (.dir "root".data [.file "a.txt".data, .dir "sub".data [.file "b.txt".data]]) =
      .ok ["root".data ++ "/".data, "├── sub/".data, "│   └── b.txt".data,
        "└── a.txt".data] :=
  c6_scenario "/r".data "root".data _ (by decide) (Or.inl rfl)

/-- C7: a subdirectory whose enumeration raises `PermissionError` still gets
its directory line (name with trailing `/`), is listed with the empty child
sequence rather than an exception, and contributes no children lines: the walk
continues with exactly the sibling lines after it. -/
theorem c7_perm_denied_dir_line (nm : PyStr) :
    (list_children_sorted (.dirPermErr nm) = .ok []) ∧
    (∀ pre, walk (.dirPermErr nm) pre = .ok []) ∧
    (∀ (rest : List Entry) (pre : PyStr) (tail : List PyStr),
      walkChildren rest pre = .ok tail →
      walkChildren (.dirPermErr nm :: rest) pre =
        .ok ((pre ++ (if rest.isEmpty then "└── ".data else "├── ".data) ++ nm ++ "/".data)
          :: tail)) := by
  refine ⟨rfl, fun pre => rfl, ?_⟩
  intro rest pre tail htail
  rw [walkChildren_cons]
  show ((walkChildren rest pre).bind fun tailLines =>
      Except.ok ((pre ++ (if rest.isEmpty then "└── ".data else "├── ".data) ++ nm
        ++ "/".data) :: tailLines)) = _
  rw [htail, ebind_ok]

theorem c7_witness :
    walkChildren [.dirPermErr "locked".data, .file "a.txt".data] [] =
      .ok ["├── locked/".data, "└── a.txt".data] :=
  (c7_perm_denied_dir_line "locked".data).2.2 [.file "a.txt".data] []
    ["└── a.txt".data] rfl

/-- C8: rendering is a function of the filesystem state alone: two renders of
the same unchanged tree yield identical line sequences. -/
theorem c8_idempotent (rs : PyStr) (t : Entry) (r₁ r₂ : Except PyErr (List PyStr))
    (h₁ : render_tree rs t = r₁) (h₂ : render_tree rs t = r₂) : r₁ = r₂ :=
  h₁ ▸ h₂ ▸ rfl

theorem c8_witness :
    (Except.ok ["root/".data, "├── sub/".data, "│   └── b.txt".data, "└── a.txt".data] :
      Except PyErr (List PyStr)) =
    .ok ["root/".data, "├── sub/".data, "│   └── b.txt".data, "└── a.txt".data] :=
  c8_idempotent "/r".data
    (.dir "root".data [.file "a.txt".data, .dir "sub".data [.file "b.txt".data]])
    _ _ rfl rfl

/-- C9: the fallback of `detect_repo_root` tests only existence of a `.git`
entry, not its kind: an ancestor whose `.git` is a plain file (as in git
worktrees) is accepted as the root exactly like one with a `.git` directory. -/
theorem c9_git_file_accepted (env : FsEnv) (start : RPath) (p : RPath) (i : Nat)
    (hgit : env.gitToplevel = none)
    (hp : (env.resolve start :: parents (env.resolve start))[i]? = some p)
    (hbefore : ∀ (j : Nat) (d : RPath), j < i →
      (env.resolve start :: parents (env.resolve start))[j]? = some d →
      env.statKind (".git".data :: d) = none)
    (hfile : env.statKind (".git".data :: p) = some FsKind.file) :
    detect_repo_root env start = p := by
  rw [detect_fallback_eq env start (Or.inl hgit),
    find?_eq_of_first (fun q => hasGitEntry env q) _ i p hp
      (fun j d hj hd => by simp [hasGitEntry, hbefore j d hj hd])
      (by simp [hasGitEntry, hfile])]

theorem c9_witness :
    detect_repo_root
      ⟨none, id, fun s => [s],
        fun q => if q = [".git".data, "a".data] then some FsKind.file else none⟩
      ["a".data] = ["a".data] :=
  c9_git_file_accepted
    ⟨none, id, fun s => [s],
      fun q => if q = [".git".data, "a".data] then some FsKind.file else none⟩
    ["a".data] ["a".data] 0 rfl rfl
    (fun j d hj _ => absurd hj (by omega)) (by decide)

/-- The sub-walk of any directory node of the rendered tree (addressed by an
`entryAt` path from a successfully walked child list) succeeds, and all of its
lines occur among the outer walk's lines. -/
theorem entryAtL_subwalk : ∀ (p : List Nat) (cs : List Entry) (pre : PyStr)
    (ls : List PyStr) (d : Entry) (sub : List Entry), walkChildren cs pre = .ok ls →
    entryAtL cs p = some d → list_children_sorted d = .ok sub →
    ∃ np subLines, walkChildren sub np = .ok subLines ∧ ∀ x ∈ subLines, x ∈ ls := by
  intro p
  induction p with
  | nil => intro cs pre ls d sub _ hat _; simp [entryAtL] at hat
  | cons i p ih =>
    intro cs pre ls d sub hok hat hsub
    cases hg : cs[i]? with
    | none =>
      cases p <;> simp only [entryAtL, hg, obind_none] at hat <;> exact Option.noConfusion hat
    | some c =>
      cases p with
      | nil =>
        simp only [entryAtL, hg, Option.some.injEq] at hat
        subst hat
        obtain ⟨np, subLines, hwc, htrans⟩ :=
          walkAux_sub (esizeList cs) cs pre ls i c sub le_rfl hok hg hsub
        refine ⟨np, subLines, hwc, ?_⟩
        intro x hx
        obtain ⟨s, hs⟩ := List.getElem?_of_mem hx
        have hidx := htrans s x hs
        rw [List.getElem?_eq_some] at hidx
        obtain ⟨hlt, heq⟩ := hidx
        exact heq ▸ List.getElem_mem hlt
      | cons j q =>
        simp only [entryAtL, hg, obind_some] at hat
        cases h3 : list_children_sorted c with
        | error e =>
          rw [h3] at hat
          simp only [etoOption_error, obind_none] at hat
          exact Option.noConfusion hat
        | ok sub₀ =>
          rw [h3] at hat
          simp only [etoOption_ok, obind_some] at hat
          obtain ⟨np₀, subLines₀, hwc₀, htrans₀⟩ :=
            walkAux_sub (esizeList cs) cs pre ls i c sub₀ le_rfl hok hg h3
          obtain ⟨np, subLines, hwc, hmem⟩ := ih sub₀ np₀ subLines₀ d sub hwc₀ hat hsub
          refine ⟨np, subLines, hwc, ?_⟩
          intro x hx
          obtain ⟨s, hs⟩ := List.getElem?_of_mem (hmem x hx)
          have hidx := htrans₀ s x hs
          rw [List.getElem?_eq_some] at hidx
          obtain ⟨hlt, heq⟩ := hidx
          exact heq ▸ List.getElem_mem hlt

/-- C10, counterexample: a file named `DIR.txt` inside an ignored directory
(`node_modules`) yields no output line at all — the whole subtree is pruned —
so a `DIR.txt` present somewhere in the tree need not appear in the output:
the render of this tree is the single root line, which does not end in
`DIR.txt`. -/
theorem c10_counterexample :
    render_tree "/r".data
      (.dir "root".data [.dir "node_modules".data [.file "DIR.txt".data]]) =
      .ok ["root/".data] ∧
    ¬ ("DIR.txt".data <:+ "root/".data) :=
  ⟨rfl, fun h => absurd h.length_le (by decide)⟩

/-- C10 (amended): the name `DIR.txt` is in neither ignore set and
`should_ignore` keeps a file of that name, so a file named `DIR.txt` among
the children of any directory the render visits — the root (path `[]`),
including the tool's own previous output file there, or any directory node of
the rendered tree — appears as a line of the output; under a pruned or
unlistable directory it is not visited and contributes no line. -/
theorem c10_dir_txt_rendered (rs : PyStr) (root : Entry) (lines : List PyStr)
    (h : render_tree rs root = .ok lines) :
    ("DIR.txt".data ∉ DEFAULT_IGNORE_DIRS ∧ "DIR.txt".data ∉ DEFAULT_IGNORE_FILES ∧
      should_ignore (.file "DIR.txt".data) = false) ∧
    (∀ (p : List Nat) (nm : PyStr) (cs : List Entry),
      entryAt root p = some (.dir nm cs) → Entry.file "DIR.txt".data ∈ cs →
      ∃ l ∈ lines, "DIR.txt".data <:+ l) := by
  refine ⟨⟨by decide, by decide, rfl⟩, ?_⟩
  intro p nm cs hat hmem
  unfold render_tree at h
  cases hw : walk root [] with
  | error er => rw [hw] at h; exact absurd h (by simp)
  | ok ls =>
    rw [hw] at h
    simp only [Except.ok.injEq] at h
    subst h
    unfold walk at hw
    cases hlcs : list_children_sorted root with
    | error er => rw [hlcs] at hw; exact absurd hw (by simp)
    | ok cs0 =>
      rw [hlcs] at hw
      have hmem' : Entry.file "DIR.txt".data ∈
          (cs.filter (fun c => !should_ignore c)).insertionSort sortKeyLe := by
        rw [List.mem_insertionSort, List.mem_filter]
        exact ⟨hmem, rfl⟩
      have hsubwalk : ∃ np subLines,
          walkChildren ((cs.filter (fun c => !should_ignore c)).insertionSort sortKeyLe)
            np = .ok subLines ∧ ∀ x ∈ subLines, x ∈ ls := by
        cases p with
        | nil =>
          simp only [entryAt, Option.some.injEq] at hat
          subst hat
          simp only [list_children_sorted, Except.ok.injEq] at hlcs
          subst hlcs
          exact ⟨[], ls, hw, fun x hx => hx⟩
        | cons i p' =>
          simp only [entryAt, hlcs, etoOption_ok, obind_some] at hat
          exact entryAtL_subwalk (i :: p') cs0 [] ls (.dir nm cs)
            ((cs.filter (fun c => !should_ignore c)).insertionSort sortKeyLe) hw hat rfl
      obtain ⟨np, subLines, hwc, hmeml⟩ := hsubwalk
      obtain ⟨b, hb, hl⟩ := walkChildren_mem_file_line hwc hmem' rfl
      exact ⟨np ++ b ++ "DIR.txt".data,
        List.mem_cons_of_mem _ (hmeml _ hl),
        List.suffix_append (np ++ b) "DIR.txt".data⟩

theorem c10_witness :
    ∃ l ∈ (["root/".data, "└── docs/".data, "    └── DIR.txt".data] : List PyStr),
      "DIR.txt".data <:+ l :=
  (c10_dir_txt_rendered "/r".data
    (.dir "root".data [.dir "docs".data [.file "DIR.txt".data]])
    ["root/".data, "└── docs/".data, "    └── DIR.txt".data] rfl).2
    [0] "docs".data [.file "DIR.txt".data] rfl (List.mem_cons_self _ _)
